import Mathlib

/-!
Verification of the stemmanauhat secret-at-rest encryption pipeline.

The development shallowly embeds the Vite plugin `vite.encrypt-secrets.plugin`
(`encryptBufferPBKDF2`, `listFilesRecursive`, `encryptTree`, `pruneStale`,
`debounce`, `fullEncrypt`, `shouldIgnore`, `configureServer`), the runtime
decryption routine `decryptPayload`, and the content-refresh script
`updateVideoIds`.

Modelling conventions:
* Byte buffers (`Buffer`, `Uint8Array`) are `List Nat` with each element `< 256`.
* The external cryptographic primitives from `node:crypto` / WebCrypto
  (PBKDF2-SHA256, AES-256-GCM) are an abstract `Crypto` structure whose fields
  state the documented library contract (deterministic KDF; AEAD encryption
  producing ciphertext plus a 16-byte tag; decryption succeeds exactly when the
  tag verifies, recovering the plaintext).  Everything the repository itself
  computes (base64, envelope assembly, tree walking, pruning, debouncing) is
  embedded concretely and executably.
* `crypto.randomBytes` is modelled by an explicit generator stream threaded
  through the synchronizer.
* JavaScript strings are Lean `String`s; `String.prototype.startsWith` /
  `endsWith` are modelled as character-sequence prefix/suffix tests.
-/

/-- UTF-8 encoding of a single code point. -/
def utf8EncodeCharNat (c : Nat) : List Nat :=
  if c < 0x80 then [c]
  else if c < 0x800 then [0xC0 + c / 64, 0x80 + c % 64]
  else if c < 0x10000 then [0xE0 + c / 4096, 0x80 + c / 64 % 64, 0x80 + c % 64]
  else [0xF0 + c / 262144, 0x80 + c / 4096 % 64, 0x80 + c / 64 % 64, 0x80 + c % 64]

/-- UTF-8 bytes of a string: `Buffer.from(s, "utf8")` / `new TextEncoder().encode(s)`. -/
def utf8Bytes (s : String) : List Nat :=
  s.toList.flatMap (fun c => utf8EncodeCharNat c.toNat)

/- ---------------- Base64 (Buffer.toString("base64") / atob) ---------------- -/

/-- The standard base64 alphabet: sextet value to character code. -/
def b64Table (i : Nat) : Nat :=
  if i < 26 then 65 + i
  else if i < 52 then 97 + (i - 26)
  else if i < 62 then 48 + (i - 52)
  else if i = 62 then 43
  else 47

/-- Inverse of the base64 alphabet: character code to sextet value. -/
def b64UnTable (c : Nat) : Option Nat :=
  if 65 ≤ c ∧ c ≤ 90 then some (c - 65)
  else if 97 ≤ c ∧ c ≤ 122 then some (26 + (c - 97))
  else if 48 ≤ c ∧ c ≤ 57 then some (52 + (c - 48))
  else if c = 43 then some 62
  else if c = 47 then some 63
  else none

/-- Base64 encoding on byte lists, producing character codes (61 is `=` padding). -/
def b64EncCodes : List Nat → List Nat
  | [] => []
  | [b0] => [b64Table (b0 / 4), b64Table (b0 % 4 * 16), 61, 61]
  | [b0, b1] => [b64Table (b0 / 4), b64Table (b0 % 4 * 16 + b1 / 16), b64Table (b1 % 16 * 4), 61]
  | b0 :: b1 :: b2 :: rest =>
      b64Table (b0 / 4) :: b64Table (b0 % 4 * 16 + b1 / 16) ::
      b64Table (b1 % 16 * 4 + b2 / 64) :: b64Table (b2 % 64) :: b64EncCodes rest

/-- Base64 decoding on character codes (`atob`); `none` models the thrown error. -/
def b64DecCodes : List Nat → Option (List Nat)
  | [] => some []
  | c0 :: c1 :: c2 :: c3 :: rest =>
      match b64UnTable c0, b64UnTable c1 with
      | some s0, some s1 =>
        if c2 = 61 then
          if c3 = 61 ∧ rest = [] then some [s0 * 4 + s1 / 16] else none
        else
          match b64UnTable c2 with
          | some s2 =>
            if c3 = 61 then
              if rest = [] then some [s0 * 4 + s1 / 16, s1 % 16 * 16 + s2 / 4] else none
            else
              match b64UnTable c3, b64DecCodes rest with
              | some s3, some tail =>
                  some ((s0 * 4 + s1 / 16) :: (s1 % 16 * 16 + s2 / 4) :: (s2 % 4 * 64 + s3) :: tail)
              | _, _ => none
          | none => none
      | _, _ => none
  | _ => none

/-- `Buffer.prototype.toString("base64")`. -/
def b64encode (bs : List Nat) : String :=
  String.mk ((b64EncCodes bs).map Char.ofNat)

/-- `Uint8Array.from(atob(s), c => c.charCodeAt(0))`; `none` when `atob` throws. -/
def b64decode (s : String) : Option (List Nat) :=
  b64DecCodes (s.toList.map Char.toNat)

/- ---------------- External crypto primitives (node:crypto / WebCrypto) ---------------- -/

/-- Abstract model of the external cryptographic primitives used by the code:
`crypto.pbkdf2Sync(pass, salt, iter, 32, "sha256")` (also WebCrypto
`deriveKey` with PBKDF2/SHA-256 into an AES-GCM-256 key, which computes the
same bytes), and AES-256-GCM split into its keystream part (`enc`/`dec`) and
its 16-byte (128-bit) authentication tag over the ciphertext.  The proof
fields state the documented contract of these library functions. -/
structure Crypto where
  pbkdf2 : List Nat → List Nat → Nat → List Nat
  enc : List Nat → List Nat → List Nat → List Nat
  dec : List Nat → List Nat → List Nat → List Nat
  tag : List Nat → List Nat → List Nat → List Nat
  dec_enc : ∀ key iv pt, dec key iv (enc key iv pt) = pt
  enc_len : ∀ key iv pt, (enc key iv pt).length = pt.length
  tag_len : ∀ key iv ct, (tag key iv ct).length = 16
  enc_lt : ∀ key iv pt, (∀ b ∈ pt, b < 256) → ∀ b ∈ enc key iv pt, b < 256
  tag_lt : ∀ key iv ct, ∀ b ∈ tag key iv ct, b < 256

/-- `cipher.update(buf) ++ cipher.final()` followed by `cipher.getAuthTag()`:
AES-GCM ciphertext concatenated with its 128-bit tag. -/
def gcmEncrypt (A : Crypto) (key iv pt : List Nat) : List Nat :=
  let c := A.enc key iv pt
  c ++ A.tag key iv c

/-- The AES-GCM tag verification performed by `crypto.subtle.decrypt`
with `tagLength: 128`: the last 16 bytes must equal the tag of the rest. -/
def tagChecks (A : Crypto) (key iv ct : List Nat) : Bool :=
  decide (16 ≤ ct.length) &&
    ct.drop (ct.length - 16) == A.tag key iv (ct.take (ct.length - 16))

/-- `crypto.subtle.decrypt({name: "AES-GCM", iv, tagLength: 128}, key, ct)`:
returns the plaintext when the tag verifies are `none` (the single generic
`OperationError`) otherwise. -/
def gcmDecrypt (A : Crypto) (key iv ct : List Nat) : Option (List Nat) :=
  if tagChecks A key iv ct then some (A.dec key iv (ct.take (ct.length - 16))) else none

/- ---------------- Envelope codec and encryption (vite.encrypt-secrets.plugin) ---------------- -/

/-- The JSON envelope object returned by `encryptBufferPBKDF2`. -/
structure Envelope where
  v : Nat
  kdf : String
  iter : Nat
  salt : String
  iv : String
  ct : String
  algo : String
deriving DecidableEq

/-- `encryptBufferPBKDF2(passphrase, buf, iterations)` from the plugin,
with the two `crypto.randomBytes` results (16-byte salt, 12-byte IV)
passed in explicitly. -/
def encryptBufferPBKDF2 (A : Crypto) (passphrase : String) (buf : List Nat)
    (iterations : Nat) (salt iv : List Nat) : Envelope :=
  let key := A.pbkdf2 (utf8Bytes passphrase) salt iterations
  let ctWithTag := gcmEncrypt A key iv buf
  { v := 1
    kdf := "PBKDF2-SHA256"
    iter := iterations
    salt := b64encode salt
    iv := b64encode iv
    ct := b64encode ctWithTag
    algo := "AES-GCM-256" }

/-- The sub-object of the envelope consumed by `decryptPayload`. -/
structure Payload where
  iter : Nat
  salt : String
  iv : String
  ct : String
deriving DecidableEq

/-- Projection of an envelope to the fields `decryptPayload` reads. -/
def Envelope.toPayload (e : Envelope) : Payload :=
  ⟨e.iter, e.salt, e.iv, e.ct⟩

/-- `decryptPayload(payload)` applied to a passphrase (`decrypt.ts`):
base64-decodes salt, IV and ciphertext, derives the AES key with
PBKDF2-SHA256 at `payload.iter` iterations, and AES-GCM-decrypts.
`none` models any thrown error. -/
def decryptPayload (A : Crypto) (payload : Payload) (passphrase : String) :
    Option (List Nat) :=
  match b64decode payload.salt, b64decode payload.iv, b64decode payload.ct with
  | some salt, some iv, some ct =>
      gcmDecrypt A (A.pbkdf2 (utf8Bytes passphrase) salt payload.iter) iv ct
  | _, _, _ => none

/-- Executable authentication-failure condition: the payload parses but the
128-bit tag does not verify under the key derived from the given passphrase.
This is the condition the spec words as "the tag does not verify". -/
def authFails (A : Crypto) (payload : Payload) (passphrase : String) : Bool :=
  match b64decode payload.salt, b64decode payload.iv, b64decode payload.ct with
  | some salt, some iv, some ct =>
      !tagChecks A (A.pbkdf2 (utf8Bytes passphrase) salt payload.iter) iv ct
  | _, _, _ => false

/-- A concrete instantiation of the primitive contract, used to evaluate the
theorems on concrete inputs. -/
def toyCrypto : Crypto where
  pbkdf2 := fun pass salt iter => (pass ++ salt ++ [iter % 256]).map (fun b => b % 256)
  enc := fun _ _ pt => pt
  dec := fun _ _ c => c
  tag := fun key iv c => List.replicate 16 ((key.sum + iv.sum + c.sum) % 256)
  dec_enc := fun _ _ _ => rfl
  enc_len := fun _ _ _ => rfl
  tag_len := fun _ _ _ => List.length_replicate 16 _
  enc_lt := fun _ _ _ h => h
  tag_lt := by
    intro key iv c b hb
    have := List.eq_of_mem_replicate hb
    subst this
    exact Nat.mod_lt _ (by omega)

/-- Concrete envelope of plaintext "hi" under passphrase "s3cret". -/
def c4Env : Envelope :=
  encryptBufferPBKDF2 toyCrypto "s3cret" (utf8Bytes "hi") 7
    [1, 2, 3, 4, 5, 6, 7, 8, 9, 10, 11, 12, 13, 14, 15, 16]
    [1, 2, 3, 4, 5, 6, 7, 8, 9, 10, 11, 12]

/-- `c4Env` with its ciphertext-plus-tag replaced by tampered bytes. -/
def c4Tampered : Payload :=
  { c4Env.toPayload with ct := b64encode (utf8Bytes "hi" ++ List.replicate 16 9) }

/- ---------------- Filesystem model and tree synchronizer ---------------- -/

/-- A node of the plaintext source tree.  `file (some bytes)` is a readable
regular file, `file none` a regular file whose `fs.readFile` rejects,
`dir` a readable directory, and `unreadable` a directory (or missing root)
whose `fs.readdir` throws — the `catch` in `listFilesRecursive` turns that
into an empty contribution. -/
inductive FsTree where
  | file : Option (List Nat) → FsTree
  | dir : List (String × FsTree) → FsTree
  | unreadable : FsTree

/-- Relative paths are lists of components (`path.relative` of the walk). -/
abbrev RelPath := List String

mutual

/-- `listFilesRecursive(rootDir)`: depth-first walk collecting the relative
paths of every regular file; a failing `readdir` (missing or unreadable
directory, or a non-directory root) contributes nothing. -/
def listFilesRecursive : FsTree → List RelPath
  | .file _ => []
  | .unreadable => []
  | .dir es => listDirEntries es

def listDirEntries : List (String × FsTree) → List RelPath
  | [] => []
  | (name, .file _) :: rest => [name] :: listDirEntries rest
  | (name, child) :: rest =>
      (listFilesRecursive child).map (fun p => name :: p) ++ listDirEntries rest

end

mutual

/-- `fs.readFile` at a relative path under the given tree; `none` models a
rejected read (missing file, unreadable file, or path through a bad node). -/
def readFileAt : FsTree → RelPath → Option (List Nat)
  | .file c, [] => c
  | .dir es, n :: rest => readDirEntryAt es n rest
  | _, _ => none

def readDirEntryAt : List (String × FsTree) → String → RelPath → Option (List Nat)
  | [], _, _ => none
  | (m, child) :: es, n, rest =>
      if m = n then readFileAt child rest else readDirEntryAt es n rest

end

/-- A file stored in the mirror tree: either a JSON envelope written by the
plugin or arbitrary other bytes. -/
inductive MirrorFile where
  | env : Envelope → MirrorFile
  | blob : List Nat → MirrorFile
deriving DecidableEq

/-- The mirror tree, as the finite map relative-path to file implied by the
directory structure (`fs.writeFile` with `mkdir -p`). -/
abbrev Mirror := List (RelPath × MirrorFile)

/-- First-match lookup of a path in the mirror. -/
def mlookup : Mirror → RelPath → Option MirrorFile
  | [], _ => none
  | (q, f) :: rest, p => if q = p then some f else mlookup rest p

/-- `fs.writeFile`: overwrite the existing entry at the path or create it. -/
def mwrite : Mirror → RelPath → MirrorFile → Mirror
  | [], p, f => [(p, f)]
  | (q, g) :: rest, p, f =>
      if q = p then (p, f) :: rest else (q, g) :: mwrite rest p f

/-- The relative paths of all files in the mirror tree (what
`listFilesRecursive(encDir)` returns, up to order). -/
def mirrorPaths (m : Mirror) : List RelPath := m.map (fun e => e.1)

/-- JS `String.prototype.endsWith`, as a character-sequence suffix test. -/
def strEndsWith (s suffixStr : String) : Bool :=
  suffixStr.toList.isSuffixOf s.toList

/-- Append the fixed `".json"` suffix to the final path component:
`path.join(encDir, rel) + ".json"` relative to `encDir`. -/
def addJson : RelPath → RelPath
  | [] => []
  | [x] => [x ++ ".json"]
  | x :: xs => x :: addJson xs

/-- Whether a relative path's joined string ends with `".json"` (the
`abs.endsWith(".json")` test of `pruneStale`): the last component carries
the suffix, since `".json"` contains no path separator. -/
def endsWithJson (p : RelPath) : Bool :=
  match p.getLast? with
  | some s => strEndsWith s ".json"
  | none => false

/-- A `crypto.randomBytes` source: an infinite stream of bytes. -/
abbrev Rng := Nat → Nat

/-- `crypto.randomBytes(n)`: the next `n` bytes of the stream and the
advanced stream. -/
def randomBytes (n : Nat) (g : Rng) : List Nat × Rng :=
  ((List.range n).map (fun i => g i % 256), fun i => g (i + n))

/-- Result of `encryptTree`: the settled mirror state, the advanced random
stream, and — because `Promise.all` rejects with the first per-file error
while the remaining started operations still run to completion — the first
failing source path, if any. -/
structure TreeResult where
  mirror : Mirror
  rng : Rng
  firstError : Option RelPath

/-- The per-file loop of `encryptTree` (lines 62-71 of the plugin): for each
listed source file, read it, generate a fresh 16-byte salt and 12-byte IV,
encrypt, and write the envelope at the `".json"`-suffixed mirrored path.
A failing read produces no write and becomes the rejection of the pass's
`Promise.all`; every other file is still processed (the promises were all
started). -/
def encryptFiles (A : Crypto) (passphrase : String) (iterations : Nat)
    (raw : FsTree) : List RelPath → Mirror → Rng → TreeResult
  | [], m, g => ⟨m, g, none⟩
  | p :: rest, m, g =>
      match readFileAt raw p with
      | none =>
          let r := encryptFiles A passphrase iterations raw rest m g
          ⟨r.mirror, r.rng, some p⟩
      | some buf =>
          let saltg := randomBytes 16 g
          let ivg := randomBytes 12 saltg.2
          encryptFiles A passphrase iterations raw rest
            (mwrite m (addJson p)
              (.env (encryptBufferPBKDF2 A passphrase buf iterations saltg.1 ivg.1)))
            ivg.2

/-- `encryptTree({rawDir, encDir, passphrase, iterations})`. -/
def encryptTree (A : Crypto) (passphrase : String) (iterations : Nat)
    (raw : FsTree) (m : Mirror) (g : Rng) : TreeResult :=
  encryptFiles A passphrase iterations raw (listFilesRecursive raw) m g

/-- `pruneStale({rawDir, encDir})`: delete every mirror file that ends in
`".json"` and is not the mirrored path of a current source file. -/
def pruneStale (raw : FsTree) (m : Mirror) : Mirror :=
  let keep := (listFilesRecursive raw).map addJson
  m.filter (fun e => decide (e.1 ∈ keep) || !endsWithJson e.1)

/-- Result of one `fullEncrypt` pass. -/
structure SyncResult where
  mirror : Mirror
  rng : Rng
  error : Option RelPath
  skipped : Bool

/-- `fullEncrypt(logger)` (lines 125-134 of the plugin): skip everything when
no passphrase is configured; otherwise run `encryptTree`, and — only when it
did not reject — run `pruneStale` when the prune flag is set.  A rejection of
`encryptTree` propagates (`error`) and skips the prune step. -/
def fullEncrypt (A : Crypto) (passphrase : String) (iterations : Nat)
    (prune : Bool) (raw : FsTree) (m : Mirror) (g : Rng) : SyncResult :=
  if passphrase = "" then ⟨m, g, none, true⟩
  else
    match encryptTree A passphrase iterations raw m g with
    | ⟨m1, g1, some e⟩ => ⟨m1, g1, some e, false⟩
    | ⟨m1, g1, none⟩ => ⟨if prune then pruneStale raw m1 else m1, g1, none, false⟩

/-- The exact-mirror property: the `".json"` files of a mirror are precisely
the mirrored paths of the current source files. -/
def mirrorExact (raw : FsTree) (m : Mirror) : Prop :=
  ∀ q, (q ∈ mirrorPaths m ∧ endsWithJson q = true) ↔
    q ∈ (listFilesRecursive raw).map addJson

/-- Two mirrors hold exactly the same set of file paths. -/
def samePaths (m1 m2 : Mirror) : Prop :=
  ∀ q, q ∈ mirrorPaths m1 ↔ q ∈ mirrorPaths m2

/-- Concrete source tree for the C2 witness. -/
def c2Raw : FsTree :=
  .dir [("alice.txt", .file (some [104, 105])),
        ("sub", .dir [("b.txt", .file (some [1]))])]

/-- Concrete prior mirror for the C2 witness: one stale envelope and one
non-envelope file. -/
def c2Mirror : Mirror := [(["old.json"], .blob [7]), (["keep.txt"], .blob [8])]

/-- The all-zero byte stream standing for `crypto.randomBytes`. -/
def zeroRng : Rng := fun _ => 0

/-- Concrete source tree for the C5 witness. -/
def c5Raw : FsTree := .dir [("alice.txt", .file (some [104]))]

/-- Concrete mirror for the C5 witness, holding a stale envelope for the
deleted source file `gone`. -/
def c5Mirror : Mirror := [(["gone.json"], .blob [9])]

/-- Concrete source tree for C3: `b.txt` is unreadable, `a.txt` and `c.txt`
are fine. -/
def c3Raw : FsTree :=
  .dir [("a.txt", .file (some [104])),
        ("b.txt", .file none),
        ("c.txt", .file (some [105]))]

/-- Concrete prior mirror for C3 holding one stale envelope file. -/
def c3Mirror : Mirror := [(["stale.json"], .blob [1, 2, 3])]

/-- The envelope-format property of C8 for a mirror entry at path `q`: it is
the mirrored path of a current source file `p` (source-relative path plus
`".json"`), and its JSON object has `v = 1`, `kdf = "PBKDF2-SHA256"`,
`algo = "AES-GCM-256"`, the configured iteration count, a base64 salt of
exactly 16 bytes drawn from the random stream, a base64 IV of exactly 12
bytes drawn next from the stream, and `ct` the base64 of the AES-GCM
ciphertext of the file contents concatenated with the 128-bit tag (so 16
bytes longer than the plaintext). -/
def envelopeOK (A : Crypto) (pass : String) (iter : Nat) (raw : FsTree)
    (q : RelPath) (e : Envelope) : Prop :=
  ∃ p ∈ listFilesRecursive raw, q = addJson p ∧
    ∃ buf salt iv, readFileAt raw p = some buf ∧
      e.v = 1 ∧ e.kdf = "PBKDF2-SHA256" ∧ e.algo = "AES-GCM-256" ∧ e.iter = iter ∧
      b64decode e.salt = some salt ∧ salt.length = 16 ∧
      b64decode e.iv = some iv ∧ iv.length = 12 ∧
      (∃ g0 : Rng, salt = (randomBytes 16 g0).1 ∧
        iv = (randomBytes 12 (randomBytes 16 g0).2).1) ∧
      b64decode e.ct = some (gcmEncrypt A (A.pbkdf2 (utf8Bytes pass) salt iter) iv buf) ∧
      (gcmEncrypt A (A.pbkdf2 (utf8Bytes pass) salt iter) iv buf).length = buf.length + 16

/-- The sync pass evaluated for the C8 witness. -/
def c8Res : SyncResult := fullEncrypt toyCrypto "s3cret" 3 true c5Raw c5Mirror zeroRng

/-- The envelope the C8 witness pass wrote at `alice.txt.json`. -/
def c8Env : Envelope :=
  match mlookup c8Res.mirror (addJson ["alice.txt"]) with
  | some (.env e) => e
  | _ => ⟨0, "", 0, "", "", "", ""⟩

/- ---------------- Watcher, ignore list and debounce ---------------- -/

/-- `path.sep` (POSIX). -/
def pathSep : String := "/"

/-- `path.resolve(process.cwd(), name)` for a plain name under an absolute,
normalized working directory. -/
def resolveUnder (cwd name : String) : String := cwd ++ pathSep ++ name

/-- JS `String.prototype.startsWith`, as a character-sequence prefix test. -/
def strStartsWith (s p : String) : Bool := p.toList.isPrefixOf s.toList

/-- The plugin's `ignorePrefixes` (lines 117-121): `node_modules`, `.git`,
and the encrypted mirror directory, each with a trailing separator. -/
def ignorePrefixes (cwd encDir : String) : List String :=
  [resolveUnder cwd "node_modules" ++ pathSep,
   resolveUnder cwd ".git" ++ pathSep,
   encDir ++ pathSep]

/-- `shouldIgnore(absPath)` (lines 136-139); the `p` it computes equals the
normalized absolute event path, so the test is a prefix check against
`ignorePrefixes`. -/
def shouldIgnore (cwd encDir : String) (absPath : String) : Bool :=
  (ignorePrefixes cwd encDir).any (fun q => strStartsWith absPath q)

/-- One filesystem change event: arrival time and the absolute path chokidar
passes as `args[1]` of the `"all"` event. -/
abbrev FsEvent := Nat × String

/-- The `debounce` wrapper (lines 89-95), as a recurrence over a
time-ordered event stream: `last` is the pending call whose timer expires at
`last.1 + ms`.  An event arriving strictly before that deadline runs
`clearTimeout` and re-arms the timer with its own arguments; otherwise the
timer fired first and the wrapped function ran with the captured arguments.
The result lists the (time, captured path) of every run of the wrapped
function. -/
def debounceGo (ms : Nat) : FsEvent → List FsEvent → List FsEvent
  | last, [] => [(last.1 + ms, last.2)]
  | last, e :: rest =>
      if last.1 + ms ≤ e.1 then (last.1 + ms, last.2) :: debounceGo ms e rest
      else debounceGo ms e rest

/-- All runs of the debounced `onAny` callback over an event stream. -/
def debounceRuns (ms : Nat) : List FsEvent → List FsEvent
  | [] => []
  | e :: rest => debounceGo ms e rest

/-- The synchronization passes started by `onAny` (lines 168-174): each run
of the debounced callback starts a `fullEncrypt` pass unless the captured
path is ignored. -/
def syncPasses (cwd encDir : String) (ms : Nat) (events : List FsEvent) : List Nat :=
  ((debounceRuns ms events).filter
    (fun r => !shouldIgnore cwd encDir r.2)).map (fun r => r.1)

/-- The watcher registration of `configureServer` (lines 176-182): with
`watchProject = true` the code runs `watcher.on("all", onAny)`; with
`watchProject = false` it runs `watcher.add(path.join(RAW_DIR, "**/*"))` —
which only extends the watched set and filters nothing — followed by the very
same `watcher.on("all", onAny)`.  Either way every delivered event reaches
the same unfiltered debounced handler. -/
def syncPassesMode (watchProject : Bool) (cwd encDir : String) (ms : Nat)
    (events : List FsEvent) : List Nat :=
  match watchProject with
  | true => syncPasses cwd encDir ms events
  | false => syncPasses cwd encDir ms events

/-- Every consecutive pair of events is closer together than the window. -/
def withinWindow (ms : Nat) : List FsEvent → Bool
  | e1 :: e2 :: rest => decide (e2.1 < e1.1 + ms) && withinWindow ms (e2 :: rest)
  | _ => true

/- ---------------- updateVideoIds (update-videos.ts) ---------------- -/

/-- The value fields of a fetched or stored video item. -/
structure VideoData where
  id : String
  title : String
  publishedAt : String
  thumbnail : String
deriving DecidableEq

/-- A JS `Video` object: heap identity (`oid`) plus fields.  The objects in
`current.videos` come from `JSON.parse` of the decrypted payload and the
objects in `latestVideos` are fresh literals built from the fetch response,
so the two lists never share an allocation: their `oid`s differ.  JavaScript
`===`/`!==` on objects compares identity (`oid`), never the fields. -/
structure VideoObj where
  oid : Nat
  data : VideoData
deriving DecidableEq

/-- `Map.prototype.set` keyed by video id on an association list: an existing
key keeps its position and takes the new value; a new key is appended. -/
def mapSetById : List (String × VideoObj) → VideoObj → List (String × VideoObj)
  | [], v => [(v.data.id, v)]
  | (k, w) :: rest, v =>
      if k = v.data.id then (k, v) :: rest else (k, w) :: mapSetById rest v

/-- Insertion step of the comparator sort. -/
def insertLe (le : VideoObj → VideoObj → Bool) (x : VideoObj) :
    List VideoObj → List VideoObj
  | [] => [x]
  | y :: ys => if le y x then y :: insertLe le x ys else x :: y :: ys

/-- A comparator sort (insertion sort), modelling `Array.prototype.sort`. -/
def sortLe (le : VideoObj → VideoObj → Bool) : List VideoObj → List VideoObj
  | [] => []
  | x :: xs => insertLe le x (sortLe le xs)

/-- `normalizeVideos(videos)` (update-videos.ts lines 112-120): dedupe by
`id` into a `Map` (last entry wins) and sort by `id.localeCompare`, modelled
as a comparator sort under an arbitrary comparator `le` (`localeCompare` is
locale-dependent). -/
def normalizeVideos (le : String → String → Bool) (videos : List VideoObj) :
    List VideoObj :=
  sortLe (fun a b => le a.data.id b.data.id)
    ((videos.foldl mapSetById []).map (fun e => e.2))

/-- Line 143: `prev.length !== next.length || prev.some((v, i) => v !== next[i])`.
`v !== next[i]` is JavaScript reference inequality on objects. -/
def videosChanged (prev next : List VideoObj) : Bool :=
  decide (prev.length ≠ next.length) ||
    (prev.zip next).any (fun pr => decide (pr.1.oid ≠ pr.2.oid))

/-- The compare-and-write-back step of `updateVideoIds` (lines 139-153):
normalize the stored and the fetched list, compute `changed`, and return the
reported result together with whether the encrypted envelope is rewritten
(`writeEncrypted` runs only when `changed`). -/
def updateVideoIds (le : String → String → Bool)
    (storedVideos fetched : List VideoObj) : String × Bool :=
  let prev := normalizeVideos le storedVideos
  let next := normalizeVideos le fetched
  if videosChanged prev next then ("updated", true) else ("unchanged", false)

theorem b64Table_inv : ∀ i : Fin 64,
    b64UnTable (b64Table i.1) = some i.1 ∧ b64Table i.1 ≠ 61 ∧ b64Table i.1 < 128 := by
  decide

theorem charCode_roundtrip : ∀ c : Fin 128, (Char.ofNat c.1).toNat = c.1 := by
  decide

theorem b64UnTable_table (i : Nat) (h : i < 64) : b64UnTable (b64Table i) = some i :=
  (b64Table_inv ⟨i, h⟩).1

theorem b64Table_ne_pad (i : Nat) (h : i < 64) : b64Table i ≠ 61 :=
  (b64Table_inv ⟨i, h⟩).2.1

theorem b64Table_lt (i : Nat) (h : i < 64) : b64Table i < 128 :=
  (b64Table_inv ⟨i, h⟩).2.2

theorem b64EncCodes_lt (bs : List Nat) (h : ∀ b ∈ bs, b < 256) :
    ∀ c ∈ b64EncCodes bs, c < 128 := by
  induction bs using b64EncCodes.induct with
  | case1 => intro c hc; simp [b64EncCodes] at hc
  | case2 b0 =>
      intro c hc
      have hb0 : b0 < 256 := h b0 (by simp)
      simp only [b64EncCodes, List.mem_cons, List.not_mem_nil, or_false] at hc
      rcases hc with rfl | rfl | rfl | rfl
      · exact b64Table_lt _ (by omega)
      · exact b64Table_lt _ (by omega)
      · omega
      · omega
  | case3 b0 b1 =>
      intro c hc
      have hb0 : b0 < 256 := h b0 (by simp)
      have hb1 : b1 < 256 := h b1 (by simp)
      simp only [b64EncCodes, List.mem_cons, List.not_mem_nil, or_false] at hc
      rcases hc with rfl | rfl | rfl | rfl
      · exact b64Table_lt _ (by omega)
      · exact b64Table_lt _ (by omega)
      · exact b64Table_lt _ (by omega)
      · omega
  | case4 b0 b1 b2 rest ih =>
      intro c hc
      have hb0 : b0 < 256 := h b0 (by simp)
      have hb1 : b1 < 256 := h b1 (by simp)
      have hb2 : b2 < 256 := h b2 (by simp)
      simp only [b64EncCodes, List.mem_cons] at hc
      rcases hc with rfl | rfl | rfl | rfl | hc
      · exact b64Table_lt _ (by omega)
      · exact b64Table_lt _ (by omega)
      · exact b64Table_lt _ (by omega)
      · exact b64Table_lt _ (by omega)
      · exact ih (fun b hb => h b (by simp [hb])) c hc

theorem b64DecCodes_enc (bs : List Nat) (h : ∀ b ∈ bs, b < 256) :
    b64DecCodes (b64EncCodes bs) = some bs := by
  induction bs using b64EncCodes.induct with
  | case1 => rfl
  | case2 b0 =>
      have hb0 : b0 < 256 := h b0 (by simp)
      simp only [b64EncCodes, b64DecCodes,
        b64UnTable_table (b0 / 4) (by omega), b64UnTable_table (b0 % 4 * 16) (by omega)]
      simp
      omega
  | case3 b0 b1 =>
      have hb0 : b0 < 256 := h b0 (by simp)
      have hb1 : b1 < 256 := h b1 (by simp)
      simp only [b64EncCodes, b64DecCodes,
        b64UnTable_table (b0 / 4) (by omega),
        b64UnTable_table (b0 % 4 * 16 + b1 / 16) (by omega),
        b64UnTable_table (b1 % 16 * 4) (by omega)]
      rw [if_neg (b64Table_ne_pad (b1 % 16 * 4) (by omega))]
      simp
      constructor
      · omega
      · omega
  | case4 b0 b1 b2 rest ih =>
      have hb0 : b0 < 256 := h b0 (by simp)
      have hb1 : b1 < 256 := h b1 (by simp)
      have hb2 : b2 < 256 := h b2 (by simp)
      have htail := ih (fun b hb => h b (by simp [hb]))
      simp only [b64EncCodes, b64DecCodes,
        b64UnTable_table (b0 / 4) (by omega),
        b64UnTable_table (b0 % 4 * 16 + b1 / 16) (by omega),
        b64UnTable_table (b1 % 16 * 4 + b2 / 64) (by omega),
        b64UnTable_table (b2 % 64) (by omega)]
      rw [if_neg (b64Table_ne_pad (b1 % 16 * 4 + b2 / 64) (by omega)),
        if_neg (b64Table_ne_pad (b2 % 64) (by omega)), htail]
      simp
      refine ⟨by omega, by omega, by omega⟩

theorem b64decode_encode (bs : List Nat) (h : ∀ b ∈ bs, b < 256) :
    b64decode (b64encode bs) = some bs := by
  have hlt := b64EncCodes_lt bs h
  have hmap : (String.mk ((b64EncCodes bs).map Char.ofNat)).toList.map Char.toNat
      = b64EncCodes bs := by
    show ((b64EncCodes bs).map Char.ofNat).map Char.toNat = b64EncCodes bs
    rw [List.map_map]
    have hpt : ∀ c ∈ b64EncCodes bs, (Char.toNat ∘ Char.ofNat) c = c :=
      fun c hc => charCode_roundtrip ⟨c, hlt c hc⟩
    rw [List.map_congr_left hpt]
    simp
  rw [b64decode, b64encode, hmap]
  exact b64DecCodes_enc bs h

theorem gcmDecrypt_encrypt (A : Crypto) (key iv pt : List Nat) :
    gcmDecrypt A key iv (gcmEncrypt A key iv pt) = some pt := by
  have hsub : (A.enc key iv pt ++ A.tag key iv (A.enc key iv pt)).length - 16
      = (A.enc key iv pt).length := by
    rw [List.length_append, A.tag_len]; omega
  have h16 : 16 ≤ (A.enc key iv pt ++ A.tag key iv (A.enc key iv pt)).length := by
    rw [List.length_append, A.tag_len]; omega
  rw [gcmEncrypt, gcmDecrypt, tagChecks]
  simp only [hsub, List.drop_left, List.take_left]
  simp only [beq_self_eq_true, Bool.and_true, decide_eq_true h16, if_true]
  rw [A.dec_enc]

/-- C1: decrypting the envelope produced by `encryptBufferPBKDF2` with the same
passphrase via `decryptPayload` returns exactly the original plaintext, for
every plaintext byte sequence, passphrase, iteration count, and (byte-valued)
salt and IV — in particular for the fresh `crypto.randomBytes` salt and IV the
plugin generates. -/
theorem decrypt_encrypt_roundtrip (A : Crypto) (passphrase : String)
    (buf : List Nat) (iterations : Nat) (salt iv : List Nat)
    (hbuf : ∀ b ∈ buf, b < 256) (hsalt : ∀ b ∈ salt, b < 256)
    (hiv : ∀ b ∈ iv, b < 256) :
    decryptPayload A (encryptBufferPBKDF2 A passphrase buf iterations salt iv).toPayload
      passphrase = some buf := by
  have hct : ∀ b ∈ gcmEncrypt A (A.pbkdf2 (utf8Bytes passphrase) salt iterations) iv buf,
      b < 256 := by
    intro b hb
    rw [gcmEncrypt] at hb
    rcases List.mem_append.1 hb with h | h
    · exact A.enc_lt _ _ _ hbuf b h
    · exact A.tag_lt _ _ _ b h
  rw [decryptPayload, encryptBufferPBKDF2, Envelope.toPayload]
  simp only [b64decode_encode salt hsalt, b64decode_encode iv hiv,
    b64decode_encode _ hct]
  exact gcmDecrypt_encrypt A _ iv buf

theorem decrypt_encrypt_roundtrip_witness :
    decryptPayload toyCrypto
      (encryptBufferPBKDF2 toyCrypto "s3cret" (utf8Bytes "hello") 1000
        [0, 1, 2, 3, 4, 5, 6, 7, 8, 9, 10, 11, 12, 13, 14, 15]
        [20, 21, 22, 23, 24, 25, 26, 27, 28, 29, 30, 31]).toPayload
      "s3cret" = some (utf8Bytes "hello") :=
  decrypt_encrypt_roundtrip toyCrypto "s3cret" (utf8Bytes "hello") 1000
    [0, 1, 2, 3, 4, 5, 6, 7, 8, 9, 10, 11, 12, 13, 14, 15]
    [20, 21, 22, 23, 24, 25, 26, 27, 28, 29, 30, 31]
    (by decide) (by decide) (by decide)

theorem decryptPayload_authFails (A : Crypto) (p : Payload) (k : String)
    (h : authFails A p k = true) : decryptPayload A p k = none := by
  rw [authFails] at h
  rw [decryptPayload]
  cases hs : b64decode p.salt with
  | none => simp [hs] at h
  | some salt =>
    cases hi : b64decode p.iv with
    | none => simp [hs, hi] at h
    | some iv =>
      cases hc : b64decode p.ct with
      | none => simp [hs, hi, hc] at h
      | some ct =>
        simp only [hs, hi, hc] at h ⊢
        have hx : tagChecks A (A.pbkdf2 (utf8Bytes k) salt p.iter) iv ct = false := by
          simpa using h
        rw [gcmDecrypt, hx]
        simp

/-- C4: an envelope whose 128-bit tag does not verify — whether because the
passphrase is wrong (the derived key differs) or because the ciphertext was
tampered with — decrypts to the one generic failure value `none`, and the two
failure cases produce literally identical results, so the caller cannot
distinguish the causes nor learn which byte or field differed.  (`p1`/`k1`
stands for the wrong-passphrase case, `p2`/`k2` for the tampered-ciphertext
case; per the spec, failure is exactly the condition "the tag does not
verify".) -/
theorem decrypt_failure_generic (A : Crypto) (p1 p2 : Payload) (k1 k2 : String)
    (h1 : authFails A p1 k1 = true) (h2 : authFails A p2 k2 = true) :
    decryptPayload A p1 k1 = none ∧
      decryptPayload A p1 k1 = decryptPayload A p2 k2 := by
  refine ⟨decryptPayload_authFails A p1 k1 h1, ?_⟩
  rw [decryptPayload_authFails A p1 k1 h1, decryptPayload_authFails A p2 k2 h2]

theorem decrypt_failure_generic_witness :
    decryptPayload toyCrypto c4Env.toPayload "wrong" = none ∧
      decryptPayload toyCrypto c4Env.toPayload "wrong"
        = decryptPayload toyCrypto c4Tampered "s3cret" :=
  decrypt_failure_generic toyCrypto c4Env.toPayload c4Tampered "wrong" "s3cret"
    (by decide) (by decide)

theorem mlookup_mwrite (m : Mirror) (p : RelPath) (f : MirrorFile) (q : RelPath) :
    mlookup (mwrite m p f) q = if p = q then some f else mlookup m q := by
  induction m with
  | nil => rfl
  | cons a rest ih =>
      obtain ⟨a1, g⟩ := a
      rw [mwrite]
      by_cases hap : a1 = p
      · subst hap
        by_cases hpq : a1 = q <;> simp [mlookup, hpq]
      · rw [if_neg hap]
        by_cases haq : a1 = q
        · subst haq
          have hpa : ¬p = a1 := fun h => hap h.symm
          simp [mlookup, hpa]
        · simp [mlookup, haq, ih]

theorem mirrorPaths_mwrite (m : Mirror) (p : RelPath) (f : MirrorFile) (q : RelPath) :
    q ∈ mirrorPaths (mwrite m p f) ↔ q = p ∨ q ∈ mirrorPaths m := by
  induction m with
  | nil => simp [mwrite, mirrorPaths]
  | cons a rest ih =>
      obtain ⟨a1, g⟩ := a
      rw [mwrite]
      by_cases hap : a1 = p
      · subst hap
        rw [if_pos rfl]
        simp only [mirrorPaths, List.map_cons, List.mem_cons] at *
        tauto
      · rw [if_neg hap]
        simp only [mirrorPaths, List.map_cons, List.mem_cons] at *
        rw [ih]
        tauto

theorem mlookup_filterKey (P : RelPath → Bool) (m : Mirror) (q : RelPath) :
    mlookup (m.filter (fun e => P e.1)) q = if P q then mlookup m q else none := by
  induction m with
  | nil =>
      rw [List.filter_nil]
      cases hq : P q
      · rfl
      · rfl
  | cons a rest ih =>
      obtain ⟨a1, f⟩ := a
      simp only [List.filter_cons]
      cases hq : P a1
      · simp only [Bool.false_eq_true, if_false, ih]
        by_cases haq : a1 = q
        · subst haq
          simp [hq]
        · simp [mlookup, haq]
      · simp only [if_true]
        by_cases haq : a1 = q
        · subst haq
          simp [mlookup, hq]
        · simp [mlookup, haq, ih]

theorem mirrorPaths_filterKey (P : RelPath → Bool) (m : Mirror) (q : RelPath) :
    q ∈ mirrorPaths (m.filter (fun e => P e.1)) ↔ q ∈ mirrorPaths m ∧ P q = true := by
  induction m with
  | nil => simp [mirrorPaths]
  | cons a rest ih =>
      obtain ⟨a1, f⟩ := a
      simp only [List.filter_cons]
      cases hq : P a1
      · simp only [Bool.false_eq_true, if_false]
        rw [ih]
        simp only [mirrorPaths, List.map_cons, List.mem_cons]
        constructor
        · rintro ⟨h1, h2⟩
          exact ⟨Or.inr h1, h2⟩
        · rintro ⟨h1 | h1, h2⟩
          · subst h1
            rw [hq] at h2
            exact absurd h2 (by simp)
          · exact ⟨h1, h2⟩
      · simp only [if_true]
        simp only [mirrorPaths, List.map_cons, List.mem_cons] at ih ⊢
        rw [ih]
        constructor
        · rintro (rfl | h)
          · exact ⟨Or.inl rfl, hq⟩
          · exact ⟨Or.inr h.1, h.2⟩
        · rintro ⟨h1 | h1, h2⟩
          · exact Or.inl h1
          · exact Or.inr ⟨h1, h2⟩

theorem randomBytes_length (n : Nat) (g : Rng) : (randomBytes n g).1.length = n := by
  simp [randomBytes]

theorem randomBytes_lt (n : Nat) (g : Rng) : ∀ b ∈ (randomBytes n g).1, b < 256 := by
  intro b hb
  simp only [randomBytes, List.mem_map] at hb
  obtain ⟨i, _, rfl⟩ := hb
  exact Nat.mod_lt _ (by omega)

theorem append_json_cancel (s t : String) (h : s ++ ".json" = t ++ ".json") : s = t := by
  apply String.ext
  have hd := congrArg String.data h
  rw [String.data_append, String.data_append] at hd
  exact List.append_cancel_right hd

theorem addJson_ne_nil (p : RelPath) (h : p ≠ []) : addJson p ≠ [] := by
  match p with
  | [x] => simp [addJson]
  | x :: y :: ys => simp [addJson]

theorem addJson_inj (p q : RelPath) (h : addJson p = addJson q) : p = q := by
  induction p using addJson.induct generalizing q with
  | case1 =>
      match q with
      | [] => rfl
      | [y] => simp [addJson] at h
      | y :: z :: zs => simp [addJson] at h
  | case2 x =>
      match q with
      | [] => simp [addJson] at h
      | [y] =>
          simp only [addJson, List.cons.injEq, and_true] at h
          rw [append_json_cancel x y h]
      | y :: z :: zs =>
          simp only [addJson, List.cons.injEq] at h
          exact absurd h.2.symm (addJson_ne_nil (z :: zs) (by simp))
  | case3 x xs hxs ih =>
      match q with
      | [] => simp [addJson] at h
      | [y] =>
          rw [show addJson (x :: xs) = x :: addJson xs from by
            match xs, hxs with
            | z :: zs, _ => rfl] at h
          simp only [addJson, List.cons.injEq] at h
          exact absurd h.2 (addJson_ne_nil xs (by simpa using hxs))
      | y :: z :: zs =>
          rw [show addJson (x :: xs) = x :: addJson xs from by
            match xs, hxs with
            | w :: ws, _ => rfl] at h
          simp only [addJson, List.cons.injEq] at h
          rw [h.1, ih (z :: zs) h.2]

theorem listDirEntries_ne_nil (es : List (String × FsTree)) :
    ∀ p ∈ listDirEntries es, p ≠ [] := by
  induction es with
  | nil => simp [listDirEntries]
  | cons a rest ih =>
      obtain ⟨name, child⟩ := a
      cases child with
      | file c =>
          intro p hp
          simp only [listDirEntries] at hp
          rcases List.mem_cons.1 hp with rfl | hp
          · simp
          · exact ih p hp
      | dir es2 =>
          intro p hp
          simp only [listDirEntries] at hp
          rcases List.mem_append.1 hp with hp | hp
          · obtain ⟨p2, _, rfl⟩ := List.mem_map.1 hp
            simp
          · exact ih p hp
      | unreadable =>
          intro p hp
          simp only [listDirEntries] at hp
          rcases List.mem_append.1 hp with hp | hp
          · obtain ⟨p2, _, rfl⟩ := List.mem_map.1 hp
            simp
          · exact ih p hp

theorem listFilesRecursive_ne_nil (t : FsTree) :
    ∀ p ∈ listFilesRecursive t, p ≠ [] := by
  cases t with
  | file c => simp [listFilesRecursive]
  | unreadable => simp [listFilesRecursive]
  | dir es => exact listDirEntries_ne_nil es

theorem strEndsWith_append (s t : String) : strEndsWith (s ++ t) t = true := by
  rw [strEndsWith, List.isSuffixOf_iff_suffix]
  show t.data <:+ (s ++ t).data
  rw [String.data_append]
  exact List.suffix_append s.data t.data

theorem endsWithJson_addJson (p : RelPath) (h : p ≠ []) :
    endsWithJson (addJson p) = true := by
  induction p using addJson.induct with
  | case1 => exact absurd rfl h
  | case2 x =>
      rw [addJson, endsWithJson]
      simp only [List.getLast?_singleton]
      exact strEndsWith_append x ".json"
  | case3 x xs hxs ih =>
      have hxs2 : xs ≠ [] := by simpa using hxs
      have hne : addJson xs ≠ [] := addJson_ne_nil xs hxs2
      rw [show addJson (x :: xs) = x :: addJson xs from by
        match xs, hxs2 with
        | w :: ws, _ => rfl]
      match haj : addJson xs, hne with
      | w :: ws, _ =>
        rw [endsWithJson, List.getLast?_cons_cons]
        have := ih hxs2
        rw [endsWithJson, haj] at this
        exact this

theorem encryptFiles_error_none (A : Crypto) (pass : String) (iter : Nat)
    (raw : FsTree) (files : List RelPath) (m : Mirror) (g : Rng)
    (h : ∀ p ∈ files, (readFileAt raw p).isSome) :
    (encryptFiles A pass iter raw files m g).firstError = none := by
  induction files generalizing m g with
  | nil => rfl
  | cons p rest ih =>
      simp only [encryptFiles]
      cases hp : readFileAt raw p with
      | none =>
          have := h p (by simp)
          rw [hp] at this
          simp at this
      | some buf => exact ih _ _ (fun q hq => h q (by simp [hq]))

theorem encryptFiles_error_some (A : Crypto) (pass : String) (iter : Nat)
    (raw : FsTree) (files : List RelPath) (m : Mirror) (g : Rng) (b : RelPath)
    (hb : b ∈ files) (hbad : readFileAt raw b = none) :
    (encryptFiles A pass iter raw files m g).firstError ≠ none := by
  induction files generalizing m g with
  | nil => simp at hb
  | cons p rest ih =>
      simp only [encryptFiles]
      cases hp : readFileAt raw p with
      | none => simp
      | some buf =>
          rcases List.mem_cons.1 hb with rfl | hbr
          · rw [hp] at hbad
            simp at hbad
          · exact ih _ _ hbr

theorem encryptFiles_lookup_untouched (A : Crypto) (pass : String) (iter : Nat)
    (raw : FsTree) (files : List RelPath) (m : Mirror) (g : Rng) (q : RelPath)
    (hq : q ∉ files.map addJson) :
    mlookup (encryptFiles A pass iter raw files m g).mirror q = mlookup m q := by
  induction files generalizing m g with
  | nil => rfl
  | cons p rest ih =>
      have hqr : q ∉ rest.map addJson := fun h => hq (by simp only [List.map_cons]; exact List.mem_cons_of_mem _ h)
      have hqp : addJson p ≠ q := fun h => hq (by simp only [List.map_cons]; exact h ▸ List.mem_cons_self _ _)
      simp only [encryptFiles]
      cases hp : readFileAt raw p with
      | none => exact ih _ _ hqr
      | some buf =>
          rw [ih _ _ hqr, mlookup_mwrite, if_neg hqp]

theorem encryptFiles_paths_mem (A : Crypto) (pass : String) (iter : Nat)
    (raw : FsTree) (files : List RelPath) (m : Mirror) (g : Rng) (q : RelPath) :
    q ∈ mirrorPaths (encryptFiles A pass iter raw files m g).mirror ↔
      q ∈ mirrorPaths m ∨ ∃ p ∈ files, (readFileAt raw p).isSome ∧ q = addJson p := by
  induction files generalizing m g with
  | nil => simp [encryptFiles]
  | cons p rest ih =>
      simp only [encryptFiles]
      cases hp : readFileAt raw p with
      | none =>
          dsimp only
          rw [ih _ _]
          constructor
          · rintro (h | ⟨p2, hp2, hs, rfl⟩)
            · exact Or.inl h
            · exact Or.inr ⟨p2, List.mem_cons_of_mem _ hp2, hs, rfl⟩
          · rintro (h | ⟨p2, hp2, hs, rfl⟩)
            · exact Or.inl h
            · rcases List.mem_cons.1 hp2 with rfl | hp2
              · rw [hp] at hs
                simp at hs
              · exact Or.inr ⟨p2, hp2, hs, rfl⟩
      | some buf =>
          rw [ih _ _, mirrorPaths_mwrite]
          constructor
          · rintro ((rfl | h) | ⟨p2, hp2, hs, rfl⟩)
            · exact Or.inr ⟨p, List.mem_cons_self _ _, by simp [hp], rfl⟩
            · exact Or.inl h
            · exact Or.inr ⟨p2, List.mem_cons_of_mem _ hp2, hs, rfl⟩
          · rintro (h | ⟨p2, hp2, hs, rfl⟩)
            · exact Or.inl (Or.inr h)
            · rcases List.mem_cons.1 hp2 with rfl | hp2
              · exact Or.inl (Or.inl rfl)
              · exact Or.inr ⟨p2, hp2, hs, rfl⟩

theorem encryptFiles_lookup_written (A : Crypto) (pass : String) (iter : Nat)
    (raw : FsTree) (files : List RelPath) (m : Mirror) (g : Rng)
    (p : RelPath) (buf : List Nat)
    (hp : p ∈ files) (hread : readFileAt raw p = some buf) :
    ∃ g0 : Rng, mlookup (encryptFiles A pass iter raw files m g).mirror (addJson p)
      = some (.env (encryptBufferPBKDF2 A pass buf iter
          (randomBytes 16 g0).1 (randomBytes 12 (randomBytes 16 g0).2).1)) := by
  induction files generalizing m g with
  | nil => simp at hp
  | cons p0 rest ih =>
      simp only [encryptFiles]
      by_cases hpr : p ∈ rest
      · cases hp0 : readFileAt raw p0 with
        | none => exact ih _ _ hpr
        | some buf0 => exact ih _ _ hpr
      · have hpp0 : p = p0 := by
          rcases List.mem_cons.1 hp with h | h
          · exact h
          · exact absurd h hpr
        subst hpp0
        rw [hread]
        have hnot : addJson p ∉ rest.map addJson := by
          intro h
          obtain ⟨p2, hp2, heq⟩ := List.mem_map.1 h
          exact hpr ((addJson_inj p2 p heq) ▸ hp2)
        refine ⟨g, ?_⟩
        rw [encryptFiles_lookup_untouched A pass iter raw rest _ _ _ hnot,
          mlookup_mwrite, if_pos rfl]

theorem encryptFiles_env_origin (A : Crypto) (pass : String) (iter : Nat)
    (raw : FsTree) (files : List RelPath) (m : Mirror) (g : Rng)
    (q : RelPath) (e : Envelope)
    (h : mlookup (encryptFiles A pass iter raw files m g).mirror q = some (.env e)) :
    mlookup m q = some (.env e) ∨
      ∃ p ∈ files, q = addJson p ∧ ∃ buf g0, readFileAt raw p = some buf ∧
        e = encryptBufferPBKDF2 A pass buf iter
          (randomBytes 16 g0).1 (randomBytes 12 (randomBytes 16 g0).2).1 := by
  induction files generalizing m g with
  | nil => exact Or.inl h
  | cons p0 rest ih =>
      simp only [encryptFiles] at h
      cases hp0 : readFileAt raw p0 with
      | none =>
          rw [hp0] at h
          rcases ih _ _ h with h2 | ⟨p, hp, rfl, buf, g0, hr, he⟩
          · exact Or.inl h2
          · exact Or.inr ⟨p, List.mem_cons_of_mem _ hp, rfl, buf, g0, hr, he⟩
      | some buf0 =>
          rw [hp0] at h
          rcases ih _ _ h with h2 | ⟨p, hp, rfl, buf, g0, hr, he⟩
          · rw [mlookup_mwrite] at h2
            by_cases hq : addJson p0 = q
            · rw [if_pos hq] at h2
              have he := MirrorFile.env.inj (Option.some.inj h2)
              exact Or.inr ⟨p0, List.mem_cons_self _ _, hq.symm, buf0, g,
                hp0, he.symm⟩
            · rw [if_neg hq] at h2
              exact Or.inl h2
          · exact Or.inr ⟨p, List.mem_cons_of_mem _ hp, rfl, buf, g0, hr, he⟩

theorem fullEncrypt_ok (A : Crypto) (pass : String) (iter : Nat) (prune : Bool)
    (raw : FsTree) (m0 : Mirror) (g : Rng) (hp : pass ≠ "")
    (hread : ∀ p ∈ listFilesRecursive raw, (readFileAt raw p).isSome) :
    fullEncrypt A pass iter prune raw m0 g =
      ⟨if prune then pruneStale raw (encryptTree A pass iter raw m0 g).mirror
         else (encryptTree A pass iter raw m0 g).mirror,
       (encryptTree A pass iter raw m0 g).rng, none, false⟩ := by
  have herr : (encryptTree A pass iter raw m0 g).firstError = none :=
    encryptFiles_error_none A pass iter raw (listFilesRecursive raw) m0 g hread
  rcases htr : encryptTree A pass iter raw m0 g with ⟨m1, g1, fe⟩
  rw [htr] at herr
  simp only at herr
  subst herr
  rw [fullEncrypt, if_neg hp, htr]

theorem fullEncrypt_paths_mem (A : Crypto) (pass : String) (iter : Nat)
    (raw : FsTree) (m0 : Mirror) (g : Rng) (hp : pass ≠ "")
    (hread : ∀ p ∈ listFilesRecursive raw, (readFileAt raw p).isSome) (q : RelPath) :
    q ∈ mirrorPaths (fullEncrypt A pass iter true raw m0 g).mirror ↔
      q ∈ (listFilesRecursive raw).map addJson ∨
        (q ∈ mirrorPaths m0 ∧ endsWithJson q = false) := by
  rw [fullEncrypt_ok A pass iter true raw m0 g hp hread]
  simp only [if_true, pruneStale]
  rw [mirrorPaths_filterKey
    (fun x => decide (x ∈ (listFilesRecursive raw).map addJson) || !endsWithJson x)
    (encryptTree A pass iter raw m0 g).mirror q]
  rw [show (encryptTree A pass iter raw m0 g).mirror
      = (encryptFiles A pass iter raw (listFilesRecursive raw) m0 g).mirror from rfl]
  rw [encryptFiles_paths_mem]
  have hkeep : (∃ p ∈ listFilesRecursive raw, (readFileAt raw p).isSome ∧ q = addJson p)
      ↔ q ∈ (listFilesRecursive raw).map addJson := by
    constructor
    · rintro ⟨p, hp2, _, rfl⟩
      exact List.mem_map.2 ⟨p, hp2, rfl⟩
    · intro h
      obtain ⟨p, hp2, rfl⟩ := List.mem_map.1 h
      exact ⟨p, hp2, hread p hp2, rfl⟩
  have hjson : ∀ r ∈ (listFilesRecursive raw).map addJson, endsWithJson r = true := by
    intro r hr
    obtain ⟨p, hp2, rfl⟩ := List.mem_map.1 hr
    exact endsWithJson_addJson p (listFilesRecursive_ne_nil raw p hp2)
  constructor
  · rintro ⟨h1, h2⟩
    simp only [Bool.or_eq_true, decide_eq_true_eq, Bool.not_eq_true'] at h2
    rcases h2 with h2 | h2
    · exact Or.inl h2
    · rcases h1 with h1 | h1
      · exact Or.inr ⟨h1, h2⟩
      · exact Or.inl (hkeep.1 h1)
  · rintro (h | ⟨h1, h2⟩)
    · refine ⟨Or.inr (hkeep.2 h), ?_⟩
      simp only [Bool.or_eq_true, decide_eq_true_eq]
      exact Or.inl h
    · refine ⟨Or.inl h1, ?_⟩
      simp only [Bool.or_eq_true, decide_eq_true_eq, Bool.not_eq_true']
      exact Or.inr h2

theorem fullEncrypt_mirrorExact (A : Crypto) (pass : String) (iter : Nat)
    (raw : FsTree) (m0 : Mirror) (g : Rng) (hp : pass ≠ "")
    (hread : ∀ p ∈ listFilesRecursive raw, (readFileAt raw p).isSome) :
    mirrorExact raw (fullEncrypt A pass iter true raw m0 g).mirror := by
  intro q
  rw [fullEncrypt_paths_mem A pass iter raw m0 g hp hread q]
  have hjson : ∀ r ∈ (listFilesRecursive raw).map addJson, endsWithJson r = true := by
    intro r hr
    obtain ⟨p, hp2, rfl⟩ := List.mem_map.1 hr
    exact endsWithJson_addJson p (listFilesRecursive_ne_nil raw p hp2)
  constructor
  · rintro ⟨h | ⟨h1, h2⟩, hj⟩
    · exact h
    · rw [hj] at h2
      exact absurd h2 (by simp)
  · intro h
    exact ⟨Or.inl h, hjson q h⟩

/-- C2: after one sync pass with prune enabled over a source tree whose files
are all readable, the mirror's `".json"` envelope files are exactly
`{s ++ ".json" : s a source-relative file path}` and nothing else; running
the pass again over the unchanged source yields a mirror with the same path
set. -/
theorem sync_mirror_exact_idempotent (A : Crypto) (pass : String) (iter : Nat)
    (raw : FsTree) (m0 : Mirror) (g : Rng) (hp : pass ≠ "")
    (hread : ∀ p ∈ listFilesRecursive raw, (readFileAt raw p).isSome) :
    mirrorExact raw (fullEncrypt A pass iter true raw m0 g).mirror ∧
      samePaths
        (fullEncrypt A pass iter true raw
          (fullEncrypt A pass iter true raw m0 g).mirror
          (fullEncrypt A pass iter true raw m0 g).rng).mirror
        (fullEncrypt A pass iter true raw m0 g).mirror := by
  have hex1 := fullEncrypt_mirrorExact A pass iter raw m0 g hp hread
  refine ⟨hex1, ?_⟩
  intro q
  rw [fullEncrypt_paths_mem A pass iter raw _ _ hp hread q]
  constructor
  · rintro (h | ⟨h1, _⟩)
    · exact ((hex1 q).2 h).1
    · exact h1
  · intro h
    by_cases hj : endsWithJson q = true
    · exact Or.inl ((hex1 q).1 ⟨h, hj⟩)
    · exact Or.inr ⟨h, by simpa using hj⟩

theorem sync_mirror_exact_idempotent_witness :
    mirrorExact c2Raw (fullEncrypt toyCrypto "s3cret" 1000 true c2Raw c2Mirror zeroRng).mirror ∧
      samePaths
        (fullEncrypt toyCrypto "s3cret" 1000 true c2Raw
          (fullEncrypt toyCrypto "s3cret" 1000 true c2Raw c2Mirror zeroRng).mirror
          (fullEncrypt toyCrypto "s3cret" 1000 true c2Raw c2Mirror zeroRng).rng).mirror
        (fullEncrypt toyCrypto "s3cret" 1000 true c2Raw c2Mirror zeroRng).mirror :=
  sync_mirror_exact_idempotent toyCrypto "s3cret" 1000 c2Raw c2Mirror zeroRng
    (by decide) (by decide)

/-- C5: if the mirror holds an envelope at `d ++ ".json"` for a source file
`d` that no longer exists, a sync pass with prune enabled deletes it, and a
sync pass with prune disabled leaves it in place (assuming the pass itself
does not reject, i.e. all current source files are readable). -/
theorem prune_flag_removes_or_keeps (A : Crypto) (pass : String) (iter : Nat)
    (raw : FsTree) (m0 : Mirror) (g : Rng) (d : RelPath) (f : MirrorFile)
    (hp : pass ≠ "")
    (hread : ∀ p ∈ listFilesRecursive raw, (readFileAt raw p).isSome)
    (hd : d ∉ listFilesRecursive raw) (hdn : d ≠ [])
    (hm : mlookup m0 (addJson d) = some f) :
    mlookup (fullEncrypt A pass iter true raw m0 g).mirror (addJson d) = none ∧
      mlookup (fullEncrypt A pass iter false raw m0 g).mirror (addJson d) = some f := by
  have hnot : addJson d ∉ (listFilesRecursive raw).map addJson := by
    intro h
    obtain ⟨p2, hp2, heq⟩ := List.mem_map.1 h
    exact hd ((addJson_inj p2 d heq) ▸ hp2)
  constructor
  · rw [fullEncrypt_ok A pass iter true raw m0 g hp hread]
    simp only [if_true, pruneStale]
    rw [mlookup_filterKey
      (fun x => decide (x ∈ (listFilesRecursive raw).map addJson) || !endsWithJson x)
      (encryptTree A pass iter raw m0 g).mirror (addJson d)]
    rw [if_neg]
    simp only [Bool.or_eq_true, decide_eq_true_eq, Bool.not_eq_true', not_or]
    exact ⟨hnot, by simp [endsWithJson_addJson d hdn]⟩
  · rw [fullEncrypt_ok A pass iter false raw m0 g hp hread]
    simp only [Bool.false_eq_true, if_false]
    rw [show (encryptTree A pass iter raw m0 g).mirror
        = (encryptFiles A pass iter raw (listFilesRecursive raw) m0 g).mirror from rfl]
    rw [encryptFiles_lookup_untouched A pass iter raw _ m0 g _ hnot]
    exact hm

theorem prune_flag_removes_or_keeps_witness :
    mlookup (fullEncrypt toyCrypto "s3cret" 1000 true c5Raw c5Mirror zeroRng).mirror
        (addJson ["gone"]) = none ∧
      mlookup (fullEncrypt toyCrypto "s3cret" 1000 false c5Raw c5Mirror zeroRng).mirror
        (addJson ["gone"]) = some (.blob [9]) :=
  prune_flag_removes_or_keeps toyCrypto "s3cret" 1000 c5Raw c5Mirror zeroRng
    ["gone"] (.blob [9]) (by decide) (by decide) (by decide) (by decide) (by decide)

/-- C10: when the source root does not exist or cannot be read (`readdir`
throws, which `listFilesRecursive` silently swallows), the enumeration is
empty and the sync pass succeeds — it reports no error and is not skipped —
and with prune enabled it deletes every `".json"` file of the mirror while
keeping every other file. -/
theorem missing_root_prunes_all (A : Crypto) (pass : String) (iter : Nat)
    (m0 : Mirror) (g : Rng) (hp : pass ≠ "") :
    listFilesRecursive .unreadable = [] ∧
      (fullEncrypt A pass iter true .unreadable m0 g).error = none ∧
      (fullEncrypt A pass iter true .unreadable m0 g).skipped = false ∧
      ∀ q, q ∈ mirrorPaths (fullEncrypt A pass iter true .unreadable m0 g).mirror ↔
        q ∈ mirrorPaths m0 ∧ endsWithJson q = false := by
  have hread : ∀ p ∈ listFilesRecursive .unreadable, (readFileAt .unreadable p).isSome := by
    intro p hp2
    simp [listFilesRecursive] at hp2
  refine ⟨rfl, ?_, ?_, ?_⟩
  · rw [fullEncrypt_ok A pass iter true .unreadable m0 g hp hread]
  · rw [fullEncrypt_ok A pass iter true .unreadable m0 g hp hread]
  · intro q
    rw [fullEncrypt_paths_mem A pass iter .unreadable m0 g hp hread q]
    simp [listFilesRecursive]

theorem missing_root_prunes_all_witness :
    listFilesRecursive .unreadable = [] ∧
      (fullEncrypt toyCrypto "s3cret" 1000 true .unreadable c5Mirror zeroRng).error = none ∧
      (fullEncrypt toyCrypto "s3cret" 1000 true .unreadable c5Mirror zeroRng).skipped = false ∧
      ∀ q, q ∈ mirrorPaths (fullEncrypt toyCrypto "s3cret" 1000 true .unreadable c5Mirror zeroRng).mirror ↔
        q ∈ mirrorPaths c5Mirror ∧ endsWithJson q = false :=
  missing_root_prunes_all toyCrypto "s3cret" 1000 c5Mirror zeroRng (by decide)

/-- C3 counterexample: with one unreadable source file the pass does NOT
collect failures into a batch list and carry on — `Promise.all` rejects with
that single file's error, `fullEncrypt` propagates it (`error = some _`), and
the prune step of the very same pass is skipped, so the stale `".json"`
envelope survives a prune-enabled pass.  This refutes "collected and reported
in a batch failure list rather than aborting the pass". -/
theorem sync_read_failure_not_batched_cex :
    (fullEncrypt toyCrypto "s3cret" 5 true c3Raw c3Mirror zeroRng).error = some ["b.txt"] ∧
      mlookup (fullEncrypt toyCrypto "s3cret" 5 true c3Raw c3Mirror zeroRng).mirror
        ["stale.json"] = some (.blob [1, 2, 3]) := by
  constructor
  · rfl
  · rfl

/-- C3 (amended): if reading one source file fails during a sync pass, every
other (readable) source file is still encrypted and written correctly, but the
pass rejects with a single failing path — there is no batch failure list — and
the rejection skips the rest of the pass: the mirror is left exactly as
`encryptTree` wrote it, without the prune step, whatever the prune flag. -/
theorem sync_partial_failure_single_error (A : Crypto) (pass : String)
    (iter : Nat) (prune : Bool) (raw : FsTree) (m0 : Mirror) (g : Rng)
    (b : RelPath) (hp : pass ≠ "")
    (hb : b ∈ listFilesRecursive raw) (hbad : readFileAt raw b = none) :
    (fullEncrypt A pass iter prune raw m0 g).error ≠ none ∧
      (fullEncrypt A pass iter prune raw m0 g).mirror
        = (encryptTree A pass iter raw m0 g).mirror ∧
      ∀ p ∈ listFilesRecursive raw, ∀ buf, readFileAt raw p = some buf →
        ∃ g0 : Rng, mlookup (fullEncrypt A pass iter prune raw m0 g).mirror (addJson p)
          = some (.env (encryptBufferPBKDF2 A pass buf iter
              (randomBytes 16 g0).1 (randomBytes 12 (randomBytes 16 g0).2).1)) := by
  have herr : (encryptTree A pass iter raw m0 g).firstError ≠ none :=
    encryptFiles_error_some A pass iter raw (listFilesRecursive raw) m0 g b hb hbad
  rcases htr : encryptTree A pass iter raw m0 g with ⟨m1, g1, fe⟩
  rw [htr] at herr
  simp only at herr
  cases fe with
  | none => exact absurd rfl herr
  | some e =>
      have hfull : fullEncrypt A pass iter prune raw m0 g = ⟨m1, g1, some e, false⟩ := by
        rw [fullEncrypt, if_neg hp, htr]
      refine ⟨by rw [hfull]; simp, by rw [hfull], ?_⟩
      intro p hp2 buf hbuf
      rw [hfull]
      have := encryptFiles_lookup_written A pass iter raw (listFilesRecursive raw)
        m0 g p buf hp2 hbuf
      rw [show (encryptFiles A pass iter raw (listFilesRecursive raw) m0 g)
          = encryptTree A pass iter raw m0 g from rfl, htr] at this
      exact this

theorem sync_partial_failure_single_error_witness :
    (fullEncrypt toyCrypto "s3cret" 5 true c3Raw c3Mirror zeroRng).error ≠ none ∧
      (fullEncrypt toyCrypto "s3cret" 5 true c3Raw c3Mirror zeroRng).mirror
        = (encryptTree toyCrypto "s3cret" 5 c3Raw c3Mirror zeroRng).mirror ∧
      ∀ p ∈ listFilesRecursive c3Raw, ∀ buf, readFileAt c3Raw p = some buf →
        ∃ g0 : Rng, mlookup (fullEncrypt toyCrypto "s3cret" 5 true c3Raw c3Mirror zeroRng).mirror
            (addJson p)
          = some (.env (encryptBufferPBKDF2 toyCrypto "s3cret" buf 5
              (randomBytes 16 g0).1 (randomBytes 12 (randomBytes 16 g0).2).1)) :=
  sync_partial_failure_single_error toyCrypto "s3cret" 5 true c3Raw c3Mirror zeroRng
    ["b.txt"] (by decide) (by decide) (by decide)

/-- C8: every envelope file a sync pass writes — i.e. every envelope in the
resulting mirror that was not already in the prior mirror — satisfies the
full envelope format contract `envelopeOK` at its `".json"`-suffixed
source-relative path.  (Source file contents are bytes.) -/
theorem envelope_format_ok (A : Crypto) (pass : String) (iter : Nat)
    (prune : Bool) (raw : FsTree) (m0 : Mirror) (g : Rng) (hp : pass ≠ "")
    (hwf : ∀ p ∈ listFilesRecursive raw, ∀ b ∈ (readFileAt raw p).getD [], b < 256)
    (q : RelPath) (e : Envelope)
    (hq : mlookup (fullEncrypt A pass iter prune raw m0 g).mirror q = some (.env e)) :
    mlookup m0 q = some (.env e) ∨ envelopeOK A pass iter raw q e := by
  have hq1 : mlookup (encryptTree A pass iter raw m0 g).mirror q = some (.env e) := by
    rcases htr : encryptTree A pass iter raw m0 g with ⟨m1, g1, fe⟩
    rw [fullEncrypt, if_neg hp, htr] at hq
    cases fe with
    | some e2 => exact hq
    | none =>
        cases prune with
        | false => exact hq
        | true =>
            simp only [if_true] at hq
            rw [pruneStale] at hq
            rw [mlookup_filterKey
              (fun x => decide (x ∈ List.map addJson (listFilesRecursive raw)) || !endsWithJson x)
              m1 q] at hq
            by_cases hPq : (decide (q ∈ List.map addJson (listFilesRecursive raw))
                || !endsWithJson q) = true
            · rw [if_pos hPq] at hq
              exact hq
            · rw [if_neg hPq] at hq
              exact absurd hq (by simp)
  rcases encryptFiles_env_origin A pass iter raw (listFilesRecursive raw) m0 g q e hq1
    with h | ⟨p, hp2, rfl, buf, g0, hr, rfl⟩
  · exact Or.inl h
  · right
    have hbuf : ∀ b ∈ buf, b < 256 := by
      have := hwf p hp2
      rw [hr] at this
      simpa using this
    have hsalt := randomBytes_lt 16 g0
    have hiv := randomBytes_lt 12 (randomBytes 16 g0).2
    have hct : ∀ b ∈ gcmEncrypt A
        (A.pbkdf2 (utf8Bytes pass) (randomBytes 16 g0).1 iter)
        (randomBytes 12 (randomBytes 16 g0).2).1 buf, b < 256 := by
      intro b hb
      rw [gcmEncrypt] at hb
      rcases List.mem_append.1 hb with h2 | h2
      · exact A.enc_lt _ _ _ hbuf b h2
      · exact A.tag_lt _ _ _ b h2
    refine ⟨p, hp2, rfl, buf, (randomBytes 16 g0).1,
      (randomBytes 12 (randomBytes 16 g0).2).1, hr,
      rfl, rfl, rfl, rfl,
      b64decode_encode _ hsalt, randomBytes_length 16 g0,
      b64decode_encode _ hiv, randomBytes_length 12 _,
      ⟨g0, rfl, rfl⟩,
      b64decode_encode _ hct, ?_⟩
    rw [gcmEncrypt]
    rw [List.length_append, A.enc_len, A.tag_len]

theorem envelope_format_ok_witness :
    mlookup c5Mirror (addJson ["alice.txt"]) = some (.env c8Env) ∨
      envelopeOK toyCrypto "s3cret" 3 c5Raw (addJson ["alice.txt"]) c8Env :=
  envelope_format_ok toyCrypto "s3cret" 3 true c5Raw c5Mirror zeroRng
    (by decide) (by decide) (addJson ["alice.txt"]) c8Env (by rfl)

theorem debounceGo_within (ms : Nat) (e : FsEvent) (rest : List FsEvent)
    (le : FsEvent) (hw : withinWindow ms (e :: rest) = true)
    (hl : (e :: rest).getLast? = some le) :
    debounceGo ms e rest = [(le.1 + ms, le.2)] := by
  induction rest generalizing e with
  | nil =>
      simp only [List.getLast?_singleton, Option.some.injEq] at hl
      subst hl
      rfl
  | cons f rest ih =>
      rw [withinWindow] at hw
      simp only [Bool.and_eq_true, decide_eq_true_eq] at hw
      rw [debounceGo, if_neg (by omega)]
      rw [List.getLast?_cons_cons] at hl
      exact ih f hw.2 hl

theorem strStartsWith_append (x s : String) : strStartsWith (x ++ s) x = true := by
  rw [strStartsWith, List.isPrefixOf_iff_prefix]
  show x.data <+: (x ++ s).data
  rw [String.data_append]
  exact List.prefix_append x.data s.data

theorem shouldIgnore_of_under (cwd encDir p : String)
    (h : (∃ s, p = (resolveUnder cwd "node_modules" ++ pathSep) ++ s) ∨
      (∃ s, p = (resolveUnder cwd ".git" ++ pathSep) ++ s) ∨
      (∃ s, p = (encDir ++ pathSep) ++ s)) :
    shouldIgnore cwd encDir p = true := by
  rw [shouldIgnore, ignorePrefixes]
  simp only [List.any_cons, List.any_nil, Bool.or_eq_true, Bool.or_false]
  rcases h with ⟨s, rfl⟩ | ⟨s, rfl⟩ | ⟨s, rfl⟩
  · exact Or.inl (strStartsWith_append _ s)
  · exact Or.inr (Or.inl (strStartsWith_append _ s))
  · exact Or.inr (Or.inr (strStartsWith_append _ s))

theorem debounceGo_paths (ms : Nat) (e : FsEvent) (rest : List FsEvent) :
    ∀ r ∈ debounceGo ms e rest, r.2 = e.2 ∨ r.2 ∈ rest.map (fun x => x.2) := by
  induction rest generalizing e with
  | nil =>
      intro r hr
      simp only [debounceGo, List.mem_singleton] at hr
      subst hr
      exact Or.inl rfl
  | cons f rest ih =>
      intro r hr
      rw [debounceGo] at hr
      by_cases hle : e.1 + ms ≤ f.1
      · rw [if_pos hle] at hr
        rcases List.mem_cons.1 hr with rfl | hr
        · exact Or.inl rfl
        · rcases ih f r hr with h | h
          · exact Or.inr (by simp [h])
          · exact Or.inr (by simp only [List.map_cons, List.mem_cons]; exact Or.inr h)
      · rw [if_neg hle] at hr
        rcases ih f r hr with h | h
        · exact Or.inr (by simp [h])
        · exact Or.inr (by simp only [List.map_cons, List.mem_cons]; exact Or.inr h)

/-- C6 counterexample: two events arrive within the debounce window (gap
100ms < 200ms), so the claim demands exactly one synchronization pass; but
because the debounced callback captures the LAST call's arguments and the
last event's path lies under the encrypted mirror directory, `onAny` returns
without syncing: zero passes run, not one. -/
theorem debounce_ignored_last_event_cex :
    syncPasses "/proj" "/proj/src/stores/secrets/encrypted" 200
        [(0, "/proj/src/stores/secrets/raw/a.txt"),
         (100, "/proj/src/stores/secrets/encrypted/a.txt.json")] = [] ∧
      (syncPasses "/proj" "/proj/src/stores/secrets/encrypted" 200
        [(0, "/proj/src/stores/secrets/raw/a.txt"),
         (100, "/proj/src/stores/secrets/encrypted/a.txt.json")]).length ≠ 1 := by
  constructor
  · rfl
  · decide

/-- C6 (amended): for a burst of N ≥ 1 events each arriving while the previous
timer is still pending (consecutive gaps < window), the debounced callback
runs exactly once, at `last event time + window` with the last event's
arguments — so at most one synchronization pass runs: exactly one when the
last captured path is not ignored, and zero when it is. -/
theorem debounce_coalesces_single_run (cwd encDir : String) (ms : Nat)
    (e : FsEvent) (rest : List FsEvent) (le : FsEvent)
    (hw : withinWindow ms (e :: rest) = true)
    (hl : (e :: rest).getLast? = some le) :
    debounceRuns ms (e :: rest) = [(le.1 + ms, le.2)] ∧
      syncPasses cwd encDir ms (e :: rest)
        = if shouldIgnore cwd encDir le.2 then [] else [le.1 + ms] := by
  have h1 : debounceRuns ms (e :: rest) = [(le.1 + ms, le.2)] :=
    debounceGo_within ms e rest le hw hl
  refine ⟨h1, ?_⟩
  rw [syncPasses, h1]
  cases hi : shouldIgnore cwd encDir le.2
  · simp [List.filter, hi]
  · simp [List.filter, hi]

theorem debounce_coalesces_single_run_witness :
    debounceRuns 200 [(0, "/p/src/a"), (50, "/p/src/b"), (120, "/p/src/c")]
        = [(320, "/p/src/c")] ∧
      syncPasses "/p" "/p/enc" 200 [(0, "/p/src/a"), (50, "/p/src/b"), (120, "/p/src/c")]
        = if shouldIgnore "/p" "/p/enc" "/p/src/c" then [] else [320] :=
  debounce_coalesces_single_run "/p" "/p/enc" 200 (0, "/p/src/a")
    [(50, "/p/src/b"), (120, "/p/src/c")] (120, "/p/src/c") (by decide) (by decide)

/-- C7 counterexample: the `watchProject = false` ("watch only the source
root") configuration does not restrict which events trigger a pass — the
branch merely `watcher.add`s the raw-directory glob and registers the same
unfiltered handler — so an event at `/proj/README.md`, which is outside the
source root (second conjunct), still triggers a synchronization pass. -/
theorem watch_scope_unrestricted_cex :
    syncPassesMode false "/proj" "/proj/src/stores/secrets/encrypted" 200
        [(0, "/proj/README.md")] = [200] ∧
      strStartsWith "/proj/README.md" ("/proj/src/stores/secrets/raw" ++ pathSep) = false := by
  constructor
  · rfl
  · rfl

/-- C7 (amended): no filesystem event whose path lies under the dependency
cache (`node_modules/`), the version-control metadata (`.git/`), or the
encrypted mirror directory ever triggers a synchronization pass — in
particular a pass's own envelope writes, which all land under the mirror
directory, never re-trigger a pass.  (The `watchProject = false` option does
not additionally restrict triggering to the source root; see the
counterexample.) -/
theorem ignored_dirs_never_sync (cwd encDir : String) (ms : Nat)
    (events : List FsEvent)
    (h : ∀ ev ∈ events,
      (∃ s, ev.2 = (resolveUnder cwd "node_modules" ++ pathSep) ++ s) ∨
      (∃ s, ev.2 = (resolveUnder cwd ".git" ++ pathSep) ++ s) ∨
      (∃ s, ev.2 = (encDir ++ pathSep) ++ s)) :
    syncPasses cwd encDir ms events = [] := by
  rw [syncPasses]
  have hfil : (debounceRuns ms events).filter
      (fun r => !shouldIgnore cwd encDir r.2) = [] := by
    rw [List.filter_eq_nil_iff]
    intro r hr
    have hpath : r.2 ∈ events.map (fun x => x.2) := by
      cases events with
      | nil => simp [debounceRuns] at hr
      | cons e rest =>
          rw [debounceRuns] at hr
          rcases debounceGo_paths ms e rest r hr with h2 | h2
          · simp [h2]
          · simp only [List.map_cons, List.mem_cons]
            exact Or.inr h2
    obtain ⟨ev, hev, hev2⟩ := List.mem_map.1 hpath
    have := shouldIgnore_of_under cwd encDir ev.2 (h ev hev)
    rw [hev2] at this
    simp [this]
  rw [hfil]
  rfl

theorem ignored_dirs_never_sync_witness :
    syncPasses "/proj" "/proj/enc" 200
      [(0, "/proj/node_modules/x.js"), (5, "/proj/enc/a.json")] = [] :=
  ignored_dirs_never_sync "/proj" "/proj/enc" 200
    [(0, "/proj/node_modules/x.js"), (5, "/proj/enc/a.json")]
    (by
      intro ev hev
      rcases List.mem_cons.1 hev with rfl | hev2
      · exact Or.inl ⟨"x.js", by decide⟩
      · rcases List.mem_cons.1 hev2 with rfl | hev3
        · exact Or.inr (Or.inr ⟨"a.json", by decide⟩)
        · simp at hev3)

/-- C9 (code bug): the stored video list and the freshly fetched list have
identical content — the normalized lists agree field for field (first
conjunct) — yet `updateVideoIds` reports "updated" and rewrites the envelope
(second conjunct), because `prev.some((v, i) => v !== next[i])` compares
object references, and the decrypted objects are never the same allocations
as the fetched ones.  The claim (and the code's own "so commits only happen
on real changes" comment) requires "unchanged" with no envelope write
whenever the content is equal. -/
theorem update_videos_reference_compare_bug :
    (normalizeVideos (fun _ _ => true)
        [⟨0, ⟨"vid1", "Song B1", "2024-01-01", "u"⟩⟩]).map (fun v => v.data)
      = (normalizeVideos (fun _ _ => true)
          [⟨1, ⟨"vid1", "Song B1", "2024-01-01", "u"⟩⟩]).map (fun v => v.data) ∧
      updateVideoIds (fun _ _ => true)
        [⟨0, ⟨"vid1", "Song B1", "2024-01-01", "u"⟩⟩]
        [⟨1, ⟨"vid1", "Song B1", "2024-01-01", "u"⟩⟩] = ("updated", true) := by
  constructor
  · rfl
  · rfl

